import Mathlib

/-!
Formal model of the logo localization and replacement engine of
`streamlined_processor.py` (class `StreamlinedImageProcessor`).

The numeric heuristics of the source (multi-scale template matching, corner
fallback, background inpainting, placement scoring, overlap suppression) are
embedded shallowly: images become dimension-carrying pixel functions, the
OpenCV correlation call becomes an oracle parameter, Python floats become
exact rationals/reals, and the source's running-best loops become explicit
`List.foldl`s.  Division by zero in `ℚ` yields `0`; theorems about the
scoring heuristics therefore assume positive logo dimensions, matching the
spec's `Rect` invariant `w > 0, h > 0`.
-/

set_option maxRecDepth 16000

namespace ImageTool

/-- Axis-aligned rectangle `(x, y, w, h)` in pixel coordinates, the 4-tuple
shape used throughout the source. -/
structure Rect where
  x : ℤ
  y : ℤ
  w : ℤ
  h : ℤ
deriving DecidableEq, Repr

/-! ### Running-best scan

Every detection loop of the source has the shape
`best = None; best_score = i; for c in cs: if score(c) > best_score: update`.
We model it once, generically. -/

open Classical in
noncomputable def scanStep {α : Type} (s : α → ℝ) (acc : Option α × ℝ) (c : α) :
    Option α × ℝ :=
  if s c > acc.2 then (some c, s c) else acc

noncomputable def scan {α : Type} (s : α → ℝ) (i : ℝ) (cs : List α) : Option α × ℝ :=
  cs.foldl (scanStep s) (none, i)

lemma scanStep_eq_or {α : Type} (s : α → ℝ) (acc : Option α × ℝ) (c : α) :
    scanStep s acc c = (some c, s c) ∨ scanStep s acc c = acc := by
  unfold scanStep
  by_cases h : s c > acc.2 <;> simp [h]

lemma scanStep_snd {α : Type} (s : α → ℝ) (acc : Option α × ℝ) (c : α) :
    (scanStep s acc c).2 = max acc.2 (s c) := by
  unfold scanStep
  by_cases h : s c > acc.2
  · simp [h, max_eq_right (le_of_lt h)]
  · simp [h, max_eq_left (le_of_not_lt h)]

lemma scan_foldl_snd_ge_init {α : Type} (s : α → ℝ) :
    ∀ (cs : List α) (acc : Option α × ℝ), acc.2 ≤ (cs.foldl (scanStep s) acc).2 := by
  intro cs
  induction cs with
  | nil => intro acc; simp
  | cons c cs ih =>
      intro acc
      have h1 : acc.2 ≤ (scanStep s acc c).2 := by
        rw [scanStep_snd]; exact le_max_left _ _
      calc acc.2 ≤ (scanStep s acc c).2 := h1
        _ ≤ ((c :: cs).foldl (scanStep s) acc).2 := by
              simpa using ih (scanStep s acc c)

lemma scan_foldl_snd_ge_mem {α : Type} (s : α → ℝ) :
    ∀ (cs : List α) (acc : Option α × ℝ) (c : α), c ∈ cs →
      s c ≤ (cs.foldl (scanStep s) acc).2 := by
  intro cs
  induction cs with
  | nil => intro acc c hc; simp at hc
  | cons d cs ih =>
      intro acc c hc
      rcases List.mem_cons.mp hc with rfl | hc
      · have h1 : s c ≤ (scanStep s acc c).2 := by
          rw [scanStep_snd]; exact le_max_right _ _
        calc s c ≤ (scanStep s acc c).2 := h1
          _ ≤ ((c :: cs).foldl (scanStep s) acc).2 := by
                simpa using scan_foldl_snd_ge_init s cs (scanStep s acc c)
      · simpa using ih (scanStep s acc d) c hc

lemma scan_foldl_result {α : Type} (s : α → ℝ) :
    ∀ (cs : List α) (acc : Option α × ℝ),
      cs.foldl (scanStep s) acc = acc ∨
      ∃ c ∈ cs, cs.foldl (scanStep s) acc = (some c, s c) := by
  intro cs
  induction cs with
  | nil => intro acc; left; rfl
  | cons d cs ih =>
      intro acc
      have hfold : (d :: cs).foldl (scanStep s) acc
          = cs.foldl (scanStep s) (scanStep s acc d) := by simp
      rcases ih (scanStep s acc d) with h | ⟨c, hc, h⟩
      · rcases scanStep_eq_or s acc d with h2 | h2
        · right
          exact ⟨d, List.mem_cons_self _ _, by rw [hfold, h, h2]⟩
        · left; rw [hfold, h, h2]
      · right
        exact ⟨c, List.mem_cons_of_mem _ hc, by rw [hfold, h]⟩

lemma scan_all_le {α : Type} (s : α → ℝ) (i : ℝ) (cs : List α)
    (h : ∀ c ∈ cs, s c ≤ i) : scan s i cs = (none, i) := by
  unfold scan
  induction cs with
  | nil => rfl
  | cons d cs ih =>
      have hd : ¬ s d > i := not_lt.mpr (h d (List.mem_cons_self _ _))
      have hstep : scanStep s (none, i) d = (none, i) := by
        unfold scanStep; simp [hd]
      simp only [List.foldl_cons, hstep]
      exact ih (fun c hc => h c (List.mem_cons_of_mem _ hc))

lemma scan_none_iff {α : Type} (s : α → ℝ) (i : ℝ) (cs : List α) :
    (scan s i cs).1 = none ↔ ∀ c ∈ cs, s c ≤ i := by
  constructor
  · intro h c hc
    rcases scan_foldl_result s cs (none, i) with h2 | ⟨c', _, h2⟩
    · have hsnd : (scan s i cs).2 = i := by unfold scan; rw [h2]
      have := scan_foldl_snd_ge_mem s cs (none, i) c hc
      unfold scan at hsnd
      exact le_of_le_of_eq this hsnd
    · exfalso
      unfold scan at h
      rw [h2] at h
      simp at h
  · intro h
    rw [scan_all_le s i cs h]

lemma scan_some {α : Type} (s : α → ℝ) (i : ℝ) (cs : List α) (c : α)
    (h : (scan s i cs).1 = some c) :
    c ∈ cs ∧ (scan s i cs).2 = s c ∧ i < s c ∧ ∀ c' ∈ cs, s c' ≤ s c := by
  rcases scan_foldl_result s cs (none, i) with h2 | ⟨c', hc', h2⟩
  · exfalso
    unfold scan at h
    rw [h2] at h
    simp at h
  · have hc : c' = c := by
      unfold scan at h
      rw [h2] at h
      simpa using h
    subst hc
    have hsnd : (scan s i cs).2 = s c' := by unfold scan; rw [h2]
    refine ⟨hc', hsnd, ?_, ?_⟩
    · by_contra hlt
      push_neg at hlt
      have hall : ¬ ((scan s i cs).1 = none) := by
        intro hn
        unfold scan at hn
        rw [h2] at hn
        simp at hn
      -- since the result is `some`, some element exceeded `i`
      have : ∃ d ∈ cs, i < s d := by
        by_contra hno
        push_neg at hno
        exact hall ((scan_none_iff s i cs).mpr hno)
      rcases this with ⟨d, hd, hid⟩
      have := scan_foldl_snd_ge_mem s cs (none, i) d hd
      unfold scan at hsnd
      rw [hsnd] at this
      exact absurd (lt_of_lt_of_le hid this) (not_lt.mpr hlt)
    · intro d hd
      have := scan_foldl_snd_ge_mem s cs (none, i) d hd
      unfold scan at hsnd
      rw [hsnd] at this
      exact this

lemma scan_from_some {α : Type} (s : α → ℝ) :
    ∀ (cs : List α) (b c : α),
      (cs.foldl (scanStep s) (some b, s b)).1 = some c →
      (c = b ∧ ∀ x ∈ cs, s x ≤ s b) ∨
      (∃ l1 l2, cs = l1 ++ c :: l2 ∧ s b < s c ∧
        (∀ x ∈ l1, s x < s c) ∧ (∀ x ∈ l2, s x ≤ s c)) := by
  intro cs
  induction cs with
  | nil =>
      intro b c h
      left
      constructor
      · simpa using h.symm
      · intro x hx; simp at hx
  | cons d cs ih =>
      intro b c h
      by_cases hd : s d > s b
      · have hstep : scanStep s (some b, s b) d = (some d, s d) := by
          unfold scanStep; simp [hd]
        have h' : (cs.foldl (scanStep s) (some d, s d)).1 = some c := by
          simpa [hstep] using h
        rcases ih d c h' with ⟨rfl, hall⟩ | ⟨l1, l2, rfl, hlt, h1, h2⟩
        · right
          exact ⟨[], cs, rfl, hd, by intro x hx; simp at hx, hall⟩
        · right
          refine ⟨d :: l1, l2, rfl, lt_trans hd hlt, ?_, h2⟩
          intro x hx
          rcases List.mem_cons.mp hx with rfl | hx
          · exact hlt
          · exact h1 x hx
      · have hstep : scanStep s (some b, s b) d = (some b, s b) := by
          unfold scanStep; simp [hd]
        have h' : (cs.foldl (scanStep s) (some b, s b)).1 = some c := by
          simpa [hstep] using h
        rcases ih b c h' with ⟨rfl, hall⟩ | ⟨l1, l2, rfl, hlt, h1, h2⟩
        · left
          refine ⟨rfl, ?_⟩
          intro x hx
          rcases List.mem_cons.mp hx with rfl | hx
          · exact le_of_not_lt hd
          · exact hall x hx
        · right
          refine ⟨d :: l1, l2, rfl, hlt, ?_, h2⟩
          intro x hx
          rcases List.mem_cons.mp hx with rfl | hx
          · exact lt_of_le_of_lt (le_of_not_lt hd) hlt
          · exact h1 x hx

lemma scan_first_max {α : Type} (s : α → ℝ) (i : ℝ) :
    ∀ (cs : List α) (c : α), (scan s i cs).1 = some c →
      ∃ l1 l2, cs = l1 ++ c :: l2 ∧
        (∀ x ∈ l1, s x < s c) ∧ (∀ x ∈ l2, s x ≤ s c) := by
  intro cs
  induction cs with
  | nil => intro c h; simp [scan] at h
  | cons d cs ih =>
      intro c h
      by_cases hd : s d > i
      · have hstep : scanStep s (none, i) d = (some d, s d) := by
          unfold scanStep; simp [hd]
        have h' : (cs.foldl (scanStep s) (some d, s d)).1 = some c := by
          unfold scan at h
          simpa [hstep] using h
        rcases scan_from_some s cs d c h' with ⟨rfl, hall⟩ | ⟨l1, l2, rfl, hlt, h1, h2⟩
        · exact ⟨[], cs, rfl, by intro x hx; simp at hx, hall⟩
        · refine ⟨d :: l1, l2, rfl, ?_, h2⟩
          intro x hx
          rcases List.mem_cons.mp hx with rfl | hx
          · exact hlt
          · exact h1 x hx
      · have hstep : scanStep s (none, i) d = (none, i) := by
          unfold scanStep; simp [hd]
        have h' : (scan s i cs).1 = some c := by
          unfold scan at h ⊢
          simpa [hstep] using h
        rcases ih c h' with ⟨l1, l2, rfl, h1, h2⟩
        have hic : i < s c := (scan_some s i _ c h').2.2.1
        refine ⟨d :: l1, l2, rfl, ?_, h2⟩
        intro x hx
        rcases List.mem_cons.mp hx with rfl | hx
        · exact lt_of_le_of_lt (le_of_not_lt hd) hic
        · exact h1 x hx

lemma scan_nonempty {α : Type} (s : α → ℝ) (i : ℝ) (cs : List α)
    (hne : cs ≠ []) (hgt : ∀ c ∈ cs, i < s c) :
    ∃ c, (scan s i cs).1 = some c := by
  cases hres : (scan s i cs).1 with
  | none =>
      exfalso
      rcases List.exists_mem_of_ne_nil cs hne with ⟨d, hd⟩
      exact absurd (hgt d hd) (not_lt.mpr ((scan_none_iff s i cs).mp hres d hd))
  | some c => exact ⟨c, rfl⟩

/-! ### Placement scorer (`find_empty_space_for_logo`, lines 501-582)

The source converts the image to 8-bit grayscale (`image.convert('L')`),
so a grayscale image is a pixel function bounded by 255. -/

/-- 8-bit grayscale raster, as produced by `image.convert('L')`. -/
structure GrayImg where
  width : ℕ
  height : ℕ
  px : ℕ → ℕ → ℕ
  px_le : ∀ i j, px i j ≤ 255

/-- The six fixed candidate slots of `find_empty_space_for_logo`, in source
order.  `Int.fdiv` is Python's floor division `//`. -/
def candidatePositions (W H lw lh : ℤ) : List (String × ℤ × ℤ) :=
  [("bottom-left", 20, H - lh - 20),
   ("bottom-right", W - lw - 20, H - lh - 20),
   ("top-left", 20, 20),
   ("top-right", W - lw - 20, 20),
   ("bottom-center", (W - lw).fdiv 2, H - lh - 20),
   ("top-center", (W - lw).fdiv 2, 20)]

/-- Negation of the source's skip test
`x < 0 or y < 0 or x + logo_width > img_width or y + logo_height > img_height`. -/
def inBoundsPos (W H lw lh x y : ℤ) : Prop :=
  0 ≤ x ∧ 0 ≤ y ∧ x + lw ≤ W ∧ y + lh ≤ H

instance (W H lw lh x y : ℤ) : Decidable (inBoundsPos W H lw lh x y) := by
  unfold inBoundsPos; infer_instance

/-- The source's overlap test against an avoid rectangle:
`not (x + lw <= ax or x >= ax + aw or y + lh <= ay or y >= ay + ah)`. -/
def overlapsAvoid (lw lh x y : ℤ) (a : Rect) : Prop :=
  ¬ (x + lw ≤ a.x ∨ x ≥ a.x + a.w ∨ y + lh ≤ a.y ∨ y ≥ a.y + a.h)

instance (lw lh x y : ℤ) (a : Rect) : Decidable (overlapsAvoid lw lh x y a) := by
  unfold overlapsAvoid; infer_instance

/-- The candidate slots surviving the bounds and avoid-overlap checks, in
enumeration order (the two `continue`s of the source loop). -/
def survivors (img : GrayImg) (lw lh : ℤ) (avoid : List Rect) :
    List (String × ℤ × ℤ) :=
  (candidatePositions (img.width : ℤ) (img.height : ℤ) lw lh).filter fun c =>
    decide (inBoundsPos (img.width : ℤ) (img.height : ℤ) lw lh c.2.1 c.2.2) &&
      avoid.all fun a => ! decide (overlapsAvoid lw lh c.2.1 c.2.2 a)

/-- Pixels of `image_array[y:y+lh, x:x+lw]`, row major. -/
def regionList (img : GrayImg) (x y lw lh : ℤ) : List ℕ :=
  (List.range lh.toNat).flatMap fun i =>
    (List.range lw.toNat).map fun j => img.px (y.toNat + i) (x.toNat + j)

/-- `np.mean`, with the `ℚ` convention `_ / 0 = 0` for empty lists. -/
def meanQ (l : List ℕ) : ℚ :=
  (l.map fun v : ℕ => (v : ℚ)).sum / l.length

/-- Population variance, the square of `np.std`. -/
def varQ (l : List ℕ) : ℚ :=
  (l.map fun v : ℕ => ((v : ℚ) - meanQ l) ^ 2).sum / l.length

/-- `np.std`: square root of the population variance. -/
noncomputable def stdR (l : List ℕ) : ℝ :=
  Real.sqrt ((varQ l : ℝ))

/-- Substring test, modelling Python's `'bottom' in position_name`. -/
def containsStr (pat s : String) : Bool :=
  s.toList.tails.any fun t => pat.toList.isPrefixOf t

/-- `position_bonus = 0.3 if 'bottom' in position_name else 0.0`. -/
def positionBonus (n : String) : ℚ :=
  if containsStr "bottom" n then 0.3 else 0

/-- The source's composite score
`intensity_score * 0.4 + consistency_score * 0.4 + position_bonus` for the
grayscale region under a candidate slot. -/
noncomputable def candScore (img : GrayImg) (lw lh : ℤ) (c : String × ℤ × ℤ) : ℝ :=
  let l := regionList img c.2.1 c.2.2 lw lh
  let intensity : ℚ := 1 - |meanQ l - 128| / 128
  let consistency : ℝ := 1 - min (stdR l / 50) 1
  (intensity : ℝ) * 0.4 + consistency * 0.4 + (positionBonus c.1 : ℝ)

/-- The composite score exactly as the claim words it:
`0.4*(1 - |mean - 128|/128) + 0.4*(1 - min(std/50, 1)) + (0.3 if 'bottom' in name else 0)`. -/
noncomputable def claimScore (img : GrayImg) (lw lh : ℤ) (c : String × ℤ × ℤ) : ℝ :=
  0.4 * ((1 - |meanQ (regionList img c.2.1 c.2.2 lw lh) - 128| / 128 : ℚ) : ℝ) +
    0.4 * (1 - min (stdR (regionList img c.2.1 c.2.2 lw lh) / 50) 1) +
    (if containsStr "bottom" c.1 then (0.3 : ℝ) else 0)

/-- `find_empty_space_for_logo`: run the running-best loop (initial best score
`-1`) over the surviving candidates; fall back to bottom-left with margin when
nothing was selected. -/
noncomputable def findEmptySpaceForLogo (img : GrayImg) (lw lh : ℤ) (avoid : List Rect) :
    ℤ × ℤ :=
  match (scan (candScore img lw lh) (-1) (survivors img lw lh avoid)).1 with
  | some c => (c.2.1, c.2.2)
  | none => (20, (img.height : ℤ) - lh - 20)

/-- Geometric overlap area of the logo rectangle at `(x, y)` with an avoid
rectangle (used to state zero-area / positive-area overlap). -/
def overlapAreaRect (x y lw lh : ℤ) (a : Rect) : ℤ :=
  max 0 (min (x + lw) (a.x + a.w) - max x a.x) *
    max 0 (min (y + lh) (a.y + a.h) - max y a.y)

lemma regionList_le (img : GrayImg) (x y lw lh : ℤ) :
    ∀ v ∈ regionList img x y lw lh, v ≤ 255 := by
  intro v hv
  simp only [regionList, List.mem_flatMap, List.mem_map, List.mem_range] at hv
  rcases hv with ⟨i, _, j, _, rfl⟩
  exact img.px_le _ _

lemma meanQ_nonneg (l : List ℕ) : 0 ≤ meanQ l := by
  unfold meanQ
  apply div_nonneg
  · apply List.sum_nonneg
    intro q hq
    obtain ⟨v, _, rfl⟩ := List.mem_map.mp hq
    exact Nat.cast_nonneg v
  · exact Nat.cast_nonneg _

lemma meanQ_le_255 (l : List ℕ) (h : ∀ v ∈ l, v ≤ 255) : meanQ l ≤ 255 := by
  unfold meanQ
  rcases Nat.eq_zero_or_pos l.length with hl | hl
  · rw [hl]
    norm_num
  · rw [div_le_iff₀ (by exact_mod_cast hl)]
    have hbound : ∀ q ∈ (l.map fun v : ℕ => (v : ℚ)), q ≤ 255 := by
      intro q hq
      obtain ⟨v, hv, rfl⟩ := List.mem_map.mp hq
      exact_mod_cast h v hv
    have h2 := List.sum_le_card_nsmul (l.map fun v : ℕ => (v : ℚ)) 255 hbound
    rw [List.length_map, nsmul_eq_mul] at h2
    calc (l.map fun v : ℕ => (v : ℚ)).sum ≤ l.length * 255 := h2
      _ = 255 * l.length := by ring

lemma positionBonus_nonneg (n : String) : 0 ≤ positionBonus n := by
  unfold positionBonus
  split <;> norm_num

lemma candScore_nonneg (img : GrayImg) (lw lh : ℤ) (c : String × ℤ × ℤ) :
    0 ≤ candScore img lw lh c := by
  unfold candScore
  have hm0 : 0 ≤ meanQ (regionList img c.2.1 c.2.2 lw lh) := meanQ_nonneg _
  have hm255 : meanQ (regionList img c.2.1 c.2.2 lw lh) ≤ 255 :=
    meanQ_le_255 _ (regionList_le img c.2.1 c.2.2 lw lh)
  have habs : |meanQ (regionList img c.2.1 c.2.2 lw lh) - 128| ≤ 128 := by
    rw [abs_le]
    constructor <;> linarith
  have hintensity : (0 : ℚ) ≤ 1 - |meanQ (regionList img c.2.1 c.2.2 lw lh) - 128| / 128 := by
    have : |meanQ (regionList img c.2.1 c.2.2 lw lh) - 128| / 128 ≤ 1 := by
      rw [div_le_one (by norm_num)]
      exact habs
    linarith
  have hconsistency : (0 : ℝ) ≤ 1 - min (stdR (regionList img c.2.1 c.2.2 lw lh) / 50) 1 := by
    have : min (stdR (regionList img c.2.1 c.2.2 lw lh) / 50) 1 ≤ 1 := min_le_right _ _
    linarith
  have hbonus : (0 : ℝ) ≤ (positionBonus c.1 : ℝ) := by
    exact_mod_cast positionBonus_nonneg c.1
  have h1 : (0 : ℝ) ≤ ((1 - |meanQ (regionList img c.2.1 c.2.2 lw lh) - 128| / 128 : ℚ) : ℝ) := by
    exact_mod_cast hintensity
  positivity

lemma candScore_gt_init (img : GrayImg) (lw lh : ℤ) (c : String × ℤ × ℤ) :
    (-1 : ℝ) < candScore img lw lh c :=
  lt_of_lt_of_le (by norm_num) (candScore_nonneg img lw lh c)

lemma mem_survivors_iff (img : GrayImg) (lw lh : ℤ) (avoid : List Rect)
    (c : String × ℤ × ℤ) :
    c ∈ survivors img lw lh avoid ↔
      c ∈ candidatePositions (img.width : ℤ) (img.height : ℤ) lw lh ∧
        inBoundsPos (img.width : ℤ) (img.height : ℤ) lw lh c.2.1 c.2.2 ∧
        ∀ a ∈ avoid, ¬ overlapsAvoid lw lh c.2.1 c.2.2 a := by
  unfold survivors
  simp [List.mem_filter, List.all_eq_true, and_assoc]

lemma findEmptySpaceForLogo_fallback (img : GrayImg) (lw lh : ℤ) (avoid : List Rect)
    (h : survivors img lw lh avoid = []) :
    findEmptySpaceForLogo img lw lh avoid = (20, (img.height : ℤ) - lh - 20) := by
  unfold findEmptySpaceForLogo
  rw [h]
  rfl

lemma findEmptySpaceForLogo_select (img : GrayImg) (lw lh : ℤ) (avoid : List Rect)
    (h : survivors img lw lh avoid ≠ []) :
    ∃ c l1 l2, survivors img lw lh avoid = l1 ++ c :: l2 ∧
      findEmptySpaceForLogo img lw lh avoid = (c.2.1, c.2.2) ∧
      (∀ x ∈ survivors img lw lh avoid,
        candScore img lw lh x ≤ candScore img lw lh c) ∧
      (∀ x ∈ l1, candScore img lw lh x < candScore img lw lh c) ∧
      (∀ x ∈ l2, candScore img lw lh x ≤ candScore img lw lh c) := by
  obtain ⟨c, hc⟩ := scan_nonempty (candScore img lw lh) (-1)
    (survivors img lw lh avoid) h
    (fun c _ => candScore_gt_init img lw lh c)
  obtain ⟨hmem, _, _, hall⟩ := scan_some _ _ _ _ hc
  obtain ⟨l1, l2, hsplit, h1, h2⟩ := scan_first_max _ _ _ _ hc
  refine ⟨c, l1, l2, hsplit, ?_, hall, h1, h2⟩
  unfold findEmptySpaceForLogo
  rw [hc]

lemma candScore_eq_claimScore (img : GrayImg) (lw lh : ℤ) (c : String × ℤ × ℤ) :
    candScore img lw lh c = claimScore img lw lh c := by
  unfold candScore claimScore positionBonus
  by_cases hb : containsStr "bottom" c.1
  · simp only [hb, if_true]
    push_cast
    ring
  · simp only [hb, if_false]
    push_cast
    ring

lemma overlapArea_pos_of_overlaps (lw lh x y : ℤ) (a : Rect)
    (hlw : 0 < lw) (hlh : 0 < lh) (haw : 0 < a.w) (hah : 0 < a.h)
    (h : overlapsAvoid lw lh x y a) : 0 < overlapAreaRect x y lw lh a := by
  unfold overlapsAvoid at h
  push_neg at h
  obtain ⟨h1, h2, h3, h4⟩ := h
  have hx : 0 < max 0 (min (x + lw) (a.x + a.w) - max x a.x) := by omega
  have hy : 0 < max 0 (min (y + lh) (a.y + a.h) - max y a.y) := by omega
  exact mul_pos hx hy

lemma overlapArea_zero_of_not_overlaps (lw lh x y : ℤ) (a : Rect)
    (h : ¬ overlapsAvoid lw lh x y a) : overlapAreaRect x y lw lh a = 0 := by
  unfold overlapsAvoid at h
  rw [not_not] at h
  unfold overlapAreaRect
  rcases h with h | h | h | h
  · have hx : max 0 (min (x + lw) (a.x + a.w) - max x a.x) = 0 := by omega
    rw [hx, zero_mul]
  · have hx : max 0 (min (x + lw) (a.x + a.w) - max x a.x) = 0 := by omega
    rw [hx, zero_mul]
  · have hy : max 0 (min (y + lh) (a.y + a.h) - max y a.y) = 0 := by omega
    rw [hy, mul_zero]
  · have hy : max 0 (min (y + lh) (a.y + a.h) - max y a.y) = 0 := by omega
    rw [hy, mul_zero]

/-- Uniform mid-gray 50x50 test image. -/
def u50 : GrayImg :=
  { width := 50, height := 50, px := fun _ _ => 128, px_le := fun _ _ => by norm_num }

/-- Uniform mid-gray 50x100 (width x height) test image. -/
def u50x100 : GrayImg :=
  { width := 50, height := 100, px := fun _ _ => 128, px_le := fun _ _ => by norm_num }

/-- C7: for every surviving placement candidate the composite score is
`0.4*(1 - |mean-128|/128) + 0.4*(1 - min(std/50, 1)) + (0.3 if the name
contains 'bottom' else 0)` over the candidate's grayscale region, and the
selected candidate is the one of maximum composite score, ties broken by the
enumeration order of `candidatePositions` (first listed wins): everything
strictly before the selected candidate scores strictly less, everything after
scores at most as much. -/
theorem placement_score_and_selection_c7 (img : GrayImg) (lw lh : ℤ)
    (avoid : List Rect) (hlw : 0 < lw) (hlh : 0 < lh)
    (hne : survivors img lw lh avoid ≠ []) :
    ∃ c l1 l2, survivors img lw lh avoid = l1 ++ c :: l2 ∧
      findEmptySpaceForLogo img lw lh avoid = (c.2.1, c.2.2) ∧
      (∀ x ∈ survivors img lw lh avoid,
        claimScore img lw lh x ≤ claimScore img lw lh c) ∧
      (∀ x ∈ l1, claimScore img lw lh x < claimScore img lw lh c) ∧
      (∀ x, candScore img lw lh x = claimScore img lw lh x) := by
  obtain ⟨c, l1, l2, hsplit, hres, hall, h1, _⟩ :=
    findEmptySpaceForLogo_select img lw lh avoid hne
  refine ⟨c, l1, l2, hsplit, hres, ?_, ?_, fun x => candScore_eq_claimScore img lw lh x⟩
  · intro x hx
    rw [← candScore_eq_claimScore, ← candScore_eq_claimScore]
    exact hall x hx
  · intro x hx
    rw [← candScore_eq_claimScore, ← candScore_eq_claimScore]
    exact h1 x hx

theorem placement_c7_witness :
    (0 : ℤ) < 1 ∧ survivors u50 1 1 [] ≠ [] ∧
    (∃ c l1 l2, survivors u50 1 1 [] = l1 ++ c :: l2 ∧
      findEmptySpaceForLogo u50 1 1 [] = (c.2.1, c.2.2) ∧
      (∀ x ∈ survivors u50 1 1 [], claimScore u50 1 1 x ≤ claimScore u50 1 1 c) ∧
      (∀ x ∈ l1, claimScore u50 1 1 x < claimScore u50 1 1 c) ∧
      (∀ x, candScore u50 1 1 x = claimScore u50 1 1 x)) :=
  ⟨by norm_num, by decide,
    placement_score_and_selection_c7 u50 1 1 [] (by norm_num) (by norm_num) (by decide)⟩

/-- C1 (amended): as long as at least one candidate slot survives the bounds
and overlap checks, the selected position never coincides with the `(x, y)`
of any candidate slot entirely covered by an avoid rectangle (positive logo
dimensions); in particular it differs from the bottom-left candidate's
`(20, image_height - logo_height - 20)` when that slot is covered.  The
fallback case is excluded: when every candidate is eliminated the function
does return exactly the bottom-left position, covered or not. -/
theorem placement_avoids_covered_slot_c1 (img : GrayImg) (lw lh : ℤ)
    (avoid : List Rect) (a : Rect) (nm : String) (cx cy : ℤ)
    (hlw : 0 < lw) (hlh : 0 < lh) (ha : a ∈ avoid)
    (hslot : (nm, cx, cy) ∈ candidatePositions (img.width : ℤ) (img.height : ℤ) lw lh)
    (hax : a.x ≤ cx) (hay : a.y ≤ cy)
    (haw : cx + lw ≤ a.x + a.w) (hah : cy + lh ≤ a.y + a.h)
    (hne : survivors img lw lh avoid ≠ []) :
    findEmptySpaceForLogo img lw lh avoid ≠ (cx, cy) := by
  obtain ⟨c, l1, l2, hsplit, hres, _, _, _⟩ :=
    findEmptySpaceForLogo_select img lw lh avoid hne
  rw [hres]
  intro heq
  have hx : c.2.1 = cx := congrArg Prod.fst heq
  have hy : c.2.2 = cy := congrArg Prod.snd heq
  have hmem : c ∈ survivors img lw lh avoid := by
    rw [hsplit]
    exact List.mem_append_right _ (List.mem_cons_self _ _)
  obtain ⟨-, -, hnov⟩ := (mem_survivors_iff img lw lh avoid c).mp hmem
  apply hnov a ha
  unfold overlapsAvoid
  rw [hx, hy]
  intro hdisj
  rcases hdisj with h | h | h | h <;> omega

theorem placement_c1_witness :
    survivors u50 1 1 [⟨20, 29, 1, 1⟩] ≠ [] ∧
    findEmptySpaceForLogo u50 1 1 [⟨20, 29, 1, 1⟩] ≠ (20, 29) :=
  ⟨by decide,
    placement_avoids_covered_slot_c1 u50 1 1 [⟨20, 29, 1, 1⟩] ⟨20, 29, 1, 1⟩
      "bottom-left" 20 29 (by norm_num) (by norm_num) (by decide) (by decide)
      (by decide) (by decide) (by decide) (by decide) (by decide)⟩

/-- C1 counterexample: an avoid rectangle covering the whole 50x50 image in
particular covers the bottom-left slot entirely, eliminates all six
candidates, and the function falls back to exactly the bottom-left
candidate's `(20, image_height - logo_height - 20) = (20, 29)` — the claim
says the returned position must differ from it. -/
theorem placement_c1_counterexample :
    ((⟨0, 0, 50, 50⟩ : Rect).x ≤ 20 ∧
      (⟨0, 0, 50, 50⟩ : Rect).y ≤ (u50.height : ℤ) - 1 - 20 ∧
      20 + 1 ≤ (⟨0, 0, 50, 50⟩ : Rect).x + (⟨0, 0, 50, 50⟩ : Rect).w ∧
      (u50.height : ℤ) - 1 - 20 + 1 ≤ (⟨0, 0, 50, 50⟩ : Rect).y + (⟨0, 0, 50, 50⟩ : Rect).h) ∧
    findEmptySpaceForLogo u50 1 1 [⟨0, 0, 50, 50⟩] = (20, 29) := by
  refine ⟨by decide, ?_⟩
  have h : survivors u50 1 1 [⟨0, 0, 50, 50⟩] = [] := by decide
  rw [findEmptySpaceForLogo_fallback _ _ _ _ h]
  decide

/-- C9 (amended): when the logo size and every avoid rectangle have positive
width and height, and some candidate slot is fully in bounds with zero-area
overlap against every avoid rectangle, the returned position keeps the logo
fully inside the image and has zero-area overlap with every avoid rectangle.
Degenerate (zero-width/height) avoid rectangles break the claim as stated:
the source's overlap test rejects candidates that merely straddle them. -/
theorem placement_in_bounds_c9 (img : GrayImg) (lw lh : ℤ) (avoid : List Rect)
    (hlw : 0 < lw) (hlh : 0 < lh)
    (hpos : ∀ a ∈ avoid, 0 < a.w ∧ 0 < a.h)
    (hex : ∃ c ∈ candidatePositions (img.width : ℤ) (img.height : ℤ) lw lh,
      inBoundsPos (img.width : ℤ) (img.height : ℤ) lw lh c.2.1 c.2.2 ∧
      ∀ a ∈ avoid, overlapAreaRect c.2.1 c.2.2 lw lh a = 0) :
    0 ≤ (findEmptySpaceForLogo img lw lh avoid).1 ∧
    0 ≤ (findEmptySpaceForLogo img lw lh avoid).2 ∧
    (findEmptySpaceForLogo img lw lh avoid).1 + lw ≤ (img.width : ℤ) ∧
    (findEmptySpaceForLogo img lw lh avoid).2 + lh ≤ (img.height : ℤ) ∧
    ∀ a ∈ avoid, overlapAreaRect (findEmptySpaceForLogo img lw lh avoid).1
      (findEmptySpaceForLogo img lw lh avoid).2 lw lh a = 0 := by
  obtain ⟨c0, hc0mem, hc0in, hc0area⟩ := hex
  have hc0surv : c0 ∈ survivors img lw lh avoid := by
    rw [mem_survivors_iff]
    refine ⟨hc0mem, hc0in, ?_⟩
    intro a ha hov
    have hpos' :=
      overlapArea_pos_of_overlaps lw lh _ _ a hlw hlh (hpos a ha).1 (hpos a ha).2 hov
    rw [hc0area a ha] at hpos'
    exact lt_irrefl _ hpos'
  have hne : survivors img lw lh avoid ≠ [] := by
    intro h
    rw [h] at hc0surv
    simp at hc0surv
  obtain ⟨c, l1, l2, hsplit, hres, _, _, _⟩ :=
    findEmptySpaceForLogo_select img lw lh avoid hne
  have hcsurv : c ∈ survivors img lw lh avoid := by
    rw [hsplit]
    exact List.mem_append_right _ (List.mem_cons_self _ _)
  obtain ⟨-, hin, hnov⟩ := (mem_survivors_iff img lw lh avoid c).mp hcsurv
  rw [hres]
  obtain ⟨h1, h2, h3, h4⟩ := hin
  exact ⟨h1, h2, h3, h4, fun a ha =>
    overlapArea_zero_of_not_overlaps lw lh _ _ a (hnov a ha)⟩

theorem placement_c9_witness :
    (∀ a ∈ [(⟨20, 29, 1, 1⟩ : Rect)], 0 < a.w ∧ 0 < a.h) ∧
    (0 ≤ (findEmptySpaceForLogo u50 1 1 [⟨20, 29, 1, 1⟩]).1 ∧
      0 ≤ (findEmptySpaceForLogo u50 1 1 [⟨20, 29, 1, 1⟩]).2 ∧
      (findEmptySpaceForLogo u50 1 1 [⟨20, 29, 1, 1⟩]).1 + 1 ≤ (u50.width : ℤ) ∧
      (findEmptySpaceForLogo u50 1 1 [⟨20, 29, 1, 1⟩]).2 + 1 ≤ (u50.height : ℤ) ∧
      ∀ a ∈ [(⟨20, 29, 1, 1⟩ : Rect)],
        overlapAreaRect (findEmptySpaceForLogo u50 1 1 [⟨20, 29, 1, 1⟩]).1
          (findEmptySpaceForLogo u50 1 1 [⟨20, 29, 1, 1⟩]).2 1 1 a = 0) :=
  ⟨by decide,
    placement_in_bounds_c9 u50 1 1 [⟨20, 29, 1, 1⟩] (by norm_num) (by norm_num)
      (by decide) (by decide)⟩

/-- C9 counterexample: on a 50x100 image with a 40x10 logo, the bottom-center
slot `(5, 70)` is fully in bounds and has zero-area overlap with the
degenerate avoid rectangle `(10, 0, 0, 100)`, yet the source's overlap test
eliminates every candidate and the fallback `(20, 70)` sticks out of the
50-pixel-wide image (`20 + 40 > 50`). -/
theorem placement_c9_counterexample :
    (("bottom-center", (5 : ℤ), (70 : ℤ)) ∈
      candidatePositions (u50x100.width : ℤ) (u50x100.height : ℤ) 40 10) ∧
    inBoundsPos (u50x100.width : ℤ) (u50x100.height : ℤ) 40 10 5 70 ∧
    overlapAreaRect 5 70 40 10 ⟨10, 0, 0, 100⟩ = 0 ∧
    findEmptySpaceForLogo u50x100 40 10 [⟨10, 0, 0, 100⟩] = (20, 70) ∧
    ¬ ((20 : ℤ) + 40 ≤ (u50x100.width : ℤ)) := by
  refine ⟨by decide, by decide, by decide, ?_, by decide⟩
  have h : survivors u50x100 40 10 [⟨10, 0, 0, 100⟩] = [] := by decide
  rw [findEmptySpaceForLogo_fallback _ _ _ _ h]
  decide

/-! ### Multi-scale template matcher (`find_and_replace_logo`, lines 412-441)

The OpenCV call `cv2.minMaxLoc(cv2.matchTemplate(...))` is modelled by an
oracle `o : ℕ → ℕ → ℝ × ℕ × ℕ` mapping a resized template size `(w, h)` to the
maximal correlation value and its location.  `int(width * scale)` truncates
toward zero; both operands are nonnegative, so it is the floor. -/

/-- `scales = [0.4, 0.5, 0.6, 0.75, 1.0, 1.25, 1.5]`. -/
def matchScales : List ℚ := [0.4, 0.5, 0.6, 0.75, 1.0, 1.25, 1.5]

/-- `int(self.old_logo.width * scale)`. -/
def scaledW (tw : ℕ) (s : ℚ) : ℕ := (⌊(tw : ℚ) * s⌋).toNat

/-- The source's evaluation guard
`new_width > 10 and new_height > 10 and new_width < image.width and new_height < image.height`. -/
def scaleOk (tw th W H : ℕ) (s : ℚ) : Prop :=
  10 < scaledW tw s ∧ 10 < scaledW th s ∧ scaledW tw s < W ∧ scaledW th s < H

instance (tw th W H : ℕ) (s : ℚ) : Decidable (scaleOk tw th W H s) := by
  unfold scaleOk; infer_instance

/-- Scales the source actually evaluates (the guard does not skip). -/
def evaluatedScales (tw th W H : ℕ) : List ℚ :=
  matchScales.filter fun s => decide (scaleOk tw th W H s)

/-- A per-scale candidate: the best correlation of that scale together with
its location and the resized template dimensions. -/
structure ScaleCand where
  scale : ℚ
  w : ℕ
  h : ℕ
  lx : ℕ
  ly : ℕ
  sim : ℝ

def matcherCands (o : ℕ → ℕ → ℝ × ℕ × ℕ) (tw th W H : ℕ) : List ScaleCand :=
  (evaluatedScales tw th W H).map fun s =>
    { scale := s, w := scaledW tw s, h := scaledW th s,
      lx := (o (scaledW tw s) (scaledW th s)).2.1,
      ly := (o (scaledW tw s) (scaledW th s)).2.2,
      sim := (o (scaledW tw s) (scaledW th s)).1 }

/-- The matcher loop: running best over the evaluated scales, with
`best_similarity` initialized to `0` as in the source. -/
noncomputable def matcherBest (o : ℕ → ℕ → ℝ × ℕ × ℕ) (tw th W H : ℕ) :
    Option ScaleCand × ℝ :=
  scan (fun c => c.sim) 0 (matcherCands o tw th W H)

/-- Membership in `evaluatedScales` unpacked. -/
lemma mem_evaluatedScales (tw th W H : ℕ) (s : ℚ) :
    s ∈ evaluatedScales tw th W H ↔ s ∈ matchScales ∧ scaleOk tw th W H s := by
  unfold evaluatedScales
  simp [List.mem_filter]

lemma mem_matcherCands (o : ℕ → ℕ → ℝ × ℕ × ℕ) (tw th W H : ℕ) (c : ScaleCand) :
    c ∈ matcherCands o tw th W H ↔
      ∃ s ∈ matchScales, scaleOk tw th W H s ∧
        c = { scale := s, w := scaledW tw s, h := scaledW th s,
              lx := (o (scaledW tw s) (scaledW th s)).2.1,
              ly := (o (scaledW tw s) (scaledW th s)).2.2,
              sim := (o (scaledW tw s) (scaledW th s)).1 } := by
  unfold matcherCands evaluatedScales
  constructor
  · intro hc
    obtain ⟨s, hs, rfl⟩ := List.mem_map.mp hc
    obtain ⟨hs1, hs2⟩ := List.mem_filter.mp hs
    exact ⟨s, hs1, of_decide_eq_true hs2, rfl⟩
  · rintro ⟨s, hs, hok, rfl⟩
    exact List.mem_map_of_mem _ (List.mem_filter.mpr ⟨hs, decide_eq_true hok⟩)

/-- C2 (amended): the matcher reports no candidate iff every scale passing
the size checks has a maximum correlation `≤ 0` (the running best similarity
starts at `0`, so non-positive correlations never produce a candidate); the
reported best similarity dominates every evaluated scale's correlation; and a
reported candidate carries the maximal correlation, which is then strictly
positive. -/
theorem matcher_report_c2 (o : ℕ → ℕ → ℝ × ℕ × ℕ) (tw th W H : ℕ) :
    ((matcherBest o tw th W H).1 = none ↔
      ∀ s ∈ matchScales, scaleOk tw th W H s →
        (o (scaledW tw s) (scaledW th s)).1 ≤ 0) ∧
    (∀ s ∈ matchScales, scaleOk tw th W H s →
      (o (scaledW tw s) (scaledW th s)).1 ≤ (matcherBest o tw th W H).2) ∧
    (∀ c, (matcherBest o tw th W H).1 = some c →
      c ∈ matcherCands o tw th W H ∧ (matcherBest o tw th W H).2 = c.sim ∧
        0 < c.sim ∧ ∀ c' ∈ matcherCands o tw th W H, c'.sim ≤ c.sim) := by
  refine ⟨?_, ?_, ?_⟩
  · rw [matcherBest, scan_none_iff]
    constructor
    · intro h s hs hok
      exact h _ ((mem_matcherCands o tw th W H _).mpr ⟨s, hs, hok, rfl⟩)
    · intro h c hc
      obtain ⟨s, hs, hok, rfl⟩ := (mem_matcherCands o tw th W H c).mp hc
      exact h s hs hok
  · intro s hs hok
    have hmem := (mem_matcherCands o tw th W H _).mpr ⟨s, hs, hok, rfl⟩
    exact scan_foldl_snd_ge_mem (fun c : ScaleCand => c.sim)
      (matcherCands o tw th W H) (none, 0) _ hmem
  · intro c hc
    obtain ⟨hmem, hsnd, hpos, hall⟩ := scan_some _ _ _ _ hc
    exact ⟨hmem, hsnd, hpos, hall⟩

/-- A correlation oracle that always answers `-1/2` (a legitimate value for
`TM_CCOEFF_NORMED`, whose range is `[-1, 1]`). -/
noncomputable def negOracle : ℕ → ℕ → ℝ × ℕ × ℕ := fun _ _ => (-(1/2 : ℝ), 0, 0)

lemma scaledW_50_05 : scaledW 50 (0.5 : ℚ) = 25 := by
  unfold scaledW
  norm_num
  rfl

/-- C2 counterexample: with a 50x50 template on a 100x100 image, scale `0.5`
passes the size checks (resized template 25x25), yet when every correlation
is `-1/2` the matcher produces no candidate — contradicting the claim that a
best candidate is produced whenever at least one scale passes the size
checks. -/
theorem matcher_c2_counterexample :
    (0.5 : ℚ) ∈ matchScales ∧ scaleOk 50 50 100 100 0.5 ∧
    (matcherBest negOracle 50 50 100 100).1 = none := by
  refine ⟨by norm_num [matchScales], ?_, ?_⟩
  · unfold scaleOk
    rw [scaledW_50_05]
    norm_num
  · rw [matcherBest, scan_none_iff]
    intro c hc
    obtain ⟨s, _, _, rfl⟩ := (mem_matcherCands negOracle 50 50 100 100 c).mp hc
    show (negOracle (scaledW 50 s) (scaledW 50 s)).1 ≤ 0
    simp only [negOracle]
    norm_num

/-- The claim's resize rule: `round(template.w * scale)`. -/
def claimSize (tw : ℕ) (s : ℚ) : ℤ := round ((tw : ℚ) * s)

/-- The claim's evaluation rule: resized template at least 10x10 and no
larger than the image in either dimension. -/
def claimScaleOk (tw th W H : ℕ) (s : ℚ) : Prop :=
  10 ≤ claimSize tw s ∧ 10 ≤ claimSize th s ∧
    claimSize tw s ≤ (W : ℤ) ∧ claimSize th s ≤ (H : ℤ)

instance (tw th W H : ℕ) (s : ℚ) : Decidable (claimScaleOk tw th W H s) := by
  unfold claimScaleOk; infer_instance

lemma scaledW_27 :
    scaledW 27 (0.4 : ℚ) = 10 ∧ scaledW 27 (0.5 : ℚ) = 13 ∧
    scaledW 27 (0.6 : ℚ) = 16 ∧ scaledW 27 (0.75 : ℚ) = 20 ∧
    scaledW 27 (1.0 : ℚ) = 27 ∧ scaledW 27 (1.25 : ℚ) = 33 ∧
    scaledW 27 (1.5 : ℚ) = 40 := by
  refine ⟨?_, ?_, ?_, ?_, ?_, ?_, ?_⟩ <;> unfold scaledW <;> norm_num <;> rfl

/-- C3 counterexample, template 27x27 on a 27x27 image: scale `0.4` resizes
to `int(10.8) = 10` and is skipped (`10 > 10` is false) although the claim
(round to 11, at least 10) says it is evaluated; scale `1.0` resizes to 27
and is skipped (`27 < 27` is false) although the claim (`27 ≤ 27`, no larger)
says it is evaluated; and scale `0.5` is evaluated at truncated size 13, not
the claim's `round(13.5) = 14`. -/
theorem matcher_c3_counterexample :
    ((0.4 : ℚ) ∈ matchScales ∧ claimScaleOk 27 27 27 27 0.4 ∧
      (0.4 : ℚ) ∉ evaluatedScales 27 27 27 27) ∧
    ((1.0 : ℚ) ∈ matchScales ∧ claimScaleOk 27 27 27 27 1.0 ∧
      (1.0 : ℚ) ∉ evaluatedScales 27 27 27 27) ∧
    ((0.5 : ℚ) ∈ evaluatedScales 27 27 27 27 ∧ scaledW 27 (0.5 : ℚ) = 13 ∧
      claimSize 27 (0.5 : ℚ) = 14) := by
  obtain ⟨h04, h05, h06, h075, h1, h125, h15⟩ := scaledW_27
  refine ⟨⟨by norm_num [matchScales], ?_, ?_⟩,
    ⟨by norm_num [matchScales], ?_, ?_⟩, ⟨?_, h05, ?_⟩⟩
  · unfold claimScaleOk claimSize
    norm_num [round_eq]
  · rw [mem_evaluatedScales]
    rintro ⟨-, hok⟩
    unfold scaleOk at hok
    rw [h04] at hok
    exact absurd hok.1 (lt_irrefl 10)
  · unfold claimScaleOk claimSize
    norm_num [round_eq]
  · rw [mem_evaluatedScales]
    rintro ⟨-, hok⟩
    unfold scaleOk at hok
    rw [h1] at hok
    exact absurd hok.2.2.1 (lt_irrefl 27)
  · rw [mem_evaluatedScales]
    refine ⟨by norm_num [matchScales], ?_⟩
    unfold scaleOk
    rw [h05]
    norm_num
  · unfold claimSize
    norm_num [round_eq]

/-- C3 (amended): a scale in the configured sequence is evaluated iff the
truncated resize `(⌊tw*s⌋, ⌊th*s⌋)` strictly exceeds 10 in both dimensions
and is strictly smaller than the image in both dimensions; skipped scales are
silent — the matcher result does not depend on the oracle outside the
evaluated sizes. -/
theorem matcher_scales_c3 (tw th W H : ℕ) :
    (∀ s ∈ matchScales,
      (s ∈ evaluatedScales tw th W H ↔
        10 < ⌊(tw : ℚ) * s⌋ ∧ 10 < ⌊(th : ℚ) * s⌋ ∧
          ⌊(tw : ℚ) * s⌋ < (W : ℤ) ∧ ⌊(th : ℚ) * s⌋ < (H : ℤ))) ∧
    (∀ o o' : ℕ → ℕ → ℝ × ℕ × ℕ,
      (∀ s ∈ evaluatedScales tw th W H,
        o (scaledW tw s) (scaledW th s) = o' (scaledW tw s) (scaledW th s)) →
      matcherBest o tw th W H = matcherBest o' tw th W H) := by
  constructor
  · intro s hs
    have hs0 : 0 ≤ s := by fin_cases hs <;> norm_num
    have h0w : 0 ≤ ⌊(tw : ℚ) * s⌋ := Int.floor_nonneg.mpr (by positivity)
    have h0h : 0 ≤ ⌊(th : ℚ) * s⌋ := Int.floor_nonneg.mpr (by positivity)
    unfold evaluatedScales
    rw [List.mem_filter]
    simp only [hs, true_and, decide_eq_true_eq]
    unfold scaleOk scaledW
    omega
  · intro o o' hag
    have hcands : matcherCands o tw th W H = matcherCands o' tw th W H := by
      unfold matcherCands
      apply List.map_congr_left
      intro s hs
      rw [hag s hs]
    unfold matcherBest
    rw [hcands]

noncomputable def oracleA : ℕ → ℕ → ℝ × ℕ × ℕ :=
  fun w _ => (if w = 10 then (5 : ℝ) else 1, 0, 0)

noncomputable def oracleB : ℕ → ℕ → ℝ × ℕ × ℕ := fun _ _ => ((1 : ℝ), 0, 0)

theorem matcher_c3_witness :
    (∀ s ∈ evaluatedScales 27 27 100 100,
      oracleA (scaledW 27 s) (scaledW 27 s) = oracleB (scaledW 27 s) (scaledW 27 s)) ∧
    matcherBest oracleA 27 27 100 100 = matcherBest oracleB 27 27 100 100 := by
  have hag : ∀ s ∈ evaluatedScales 27 27 100 100,
      oracleA (scaledW 27 s) (scaledW 27 s) = oracleB (scaledW 27 s) (scaledW 27 s) := by
    intro s hs
    rw [mem_evaluatedScales] at hs
    obtain ⟨hmem, hok⟩ := hs
    unfold scaleOk at hok
    obtain ⟨h04, h05, h06, h075, h1, h125, h15⟩ := scaledW_27
    have hne : scaledW 27 s ≠ 10 := by
      fin_cases hmem
      · rw [h04] at hok
        exact absurd hok.1 (lt_irrefl 10)
      · rw [h05]; norm_num
      · rw [h06]; norm_num
      · rw [h075]; norm_num
      · rw [h1]; norm_num
      · rw [h125]; norm_num
      · rw [h15]; norm_num
    unfold oracleA oracleB
    rw [if_neg hne]
  exact ⟨hag, (matcher_scales_c3 27 27 100 100).2 oracleA oracleB hag⟩

/-! ### Corner fallback detector (`_find_logo_in_corners`, lines 632-691)

The normalized cross-correlation of the cropped corner region against the
template resized to that window is modelled by an oracle
`cO : ℤ → ℤ → ℕ → ℕ → ℝ` on the window `(x, y, w, h)`. -/

/-- `logo_sizes`: native size, then `int(w*0.5)`, `int(w*0.75)`, `int(w*1.25)`
scalings (same truncation as the matcher). -/
def cornerSizes (tw th : ℕ) : List (ℕ × ℕ) :=
  [(tw, th), (scaledW tw 0.5, scaledW th 0.5),
   (scaledW tw 0.75, scaledW th 0.75), (scaledW tw 1.25, scaledW th 1.25)]

/-- A checked corner window. -/
structure CornerWin where
  name : String
  x : ℤ
  y : ℤ
  w : ℕ
  h : ℕ
deriving DecidableEq

/-- The four fixed corner anchors for a window size `(w, h)`, in source
order. -/
def cornerAnchors (W H w h : ℕ) : List (String × ℤ × ℤ) :=
  [("bottom-left", 0, (H : ℤ) - h), ("bottom-right", (W : ℤ) - w, (H : ℤ) - h),
   ("top-left", 0, 0), ("top-right", (W : ℤ) - w, 0)]

/-- All corner windows the source actually checks: sizes with a zero
dimension are skipped (`w <= 0 or h <= 0`), and anchors falling outside the
image are skipped (`x >= 0 and y >= 0 and x + w <= width and y + h <= height`). -/
def cornerWindows (W H tw th : ℕ) : List CornerWin :=
  (cornerSizes tw th).flatMap fun sz =>
    if sz.1 = 0 ∨ sz.2 = 0 then []
    else
      (cornerAnchors W H sz.1 sz.2).filterMap fun p =>
        if 0 ≤ p.2.1 ∧ 0 ≤ p.2.2 ∧ p.2.1 + sz.1 ≤ (W : ℤ) ∧ p.2.2 + sz.2 ≤ (H : ℤ)
        then some ⟨p.1, p.2.1, p.2.2, sz.1, sz.2⟩
        else none

/-- `_find_logo_in_corners`: running best (initial similarity `0`) over all
checked windows, then the gate
`if best_match and best_similarity > strict_threshold: return rect else None`.
The orchestrator's secondary pass calls this with `strict_threshold=0.6`
(line 446). -/
noncomputable def findLogoInCorners (cO : ℤ → ℤ → ℕ → ℕ → ℝ) (W H tw th : ℕ) (θ : ℝ) :
    Option (ℤ × ℤ × ℕ × ℕ) :=
  match (scan (fun cw : CornerWin => cO cw.x cw.y cw.w cw.h) 0
      (cornerWindows W H tw th)).1 with
  | some m =>
      if (scan (fun cw : CornerWin => cO cw.x cw.y cw.w cw.h) 0
          (cornerWindows W H tw th)).2 > θ then
        some (m.x, m.y, m.w, m.h)
      else none
  | none => none

/-- The orchestrator's invocation of the corner fallback,
`self._find_logo_in_corners(main_image, strict_threshold=0.6)`. -/
noncomputable def cornerFallbackCall (cO : ℤ → ℤ → ℕ → ℕ → ℝ) (W H tw th : ℕ) :
    Option (ℤ × ℤ × ℕ × ℕ) :=
  findLogoInCorners cO W H tw th 0.6

lemma findLogoInCorners_eq_none (cO : ℤ → ℤ → ℕ → ℕ → ℝ) (W H tw th : ℕ) (θ : ℝ)
    (h : (scan (fun cw : CornerWin => cO cw.x cw.y cw.w cw.h) 0
      (cornerWindows W H tw th)).1 = none) :
    findLogoInCorners cO W H tw th θ = none := by
  unfold findLogoInCorners
  rw [h]

lemma findLogoInCorners_eq_some (cO : ℤ → ℤ → ℕ → ℕ → ℝ) (W H tw th : ℕ) (θ : ℝ)
    (m : CornerWin)
    (h : (scan (fun cw : CornerWin => cO cw.x cw.y cw.w cw.h) 0
      (cornerWindows W H tw th)).1 = some m) :
    findLogoInCorners cO W H tw th θ =
      if (scan (fun cw : CornerWin => cO cw.x cw.y cw.w cw.h) 0
          (cornerWindows W H tw th)).2 > θ
      then some (m.x, m.y, m.w, m.h) else none := by
  unfold findLogoInCorners
  rw [h]

/-- C4: for any nonnegative threshold (in particular the secondary pass's
0.6), the corner fallback returns `None` iff every checked corner window's
similarity is at most the threshold, and when it returns a rectangle, that
rectangle is a checked window whose similarity strictly exceeds the threshold
and dominates every other checked window's similarity. -/
theorem corners_threshold_c4 (cO : ℤ → ℤ → ℕ → ℕ → ℝ) (W H tw th : ℕ) (θ : ℝ)
    (hθ : 0 ≤ θ) :
    (findLogoInCorners cO W H tw th θ = none ↔
      ∀ cw ∈ cornerWindows W H tw th, cO cw.x cw.y cw.w cw.h ≤ θ) ∧
    (∀ r, findLogoInCorners cO W H tw th θ = some r →
      ∃ cw ∈ cornerWindows W H tw th, r = (cw.x, cw.y, cw.w, cw.h) ∧
        θ < cO cw.x cw.y cw.w cw.h ∧
        ∀ cw' ∈ cornerWindows W H tw th,
          cO cw'.x cw'.y cw'.w cw'.h ≤ cO cw.x cw.y cw.w cw.h) := by
  constructor
  · constructor
    · intro hnone cw hcw
      cases hr : (scan (fun cw : CornerWin => cO cw.x cw.y cw.w cw.h) 0
          (cornerWindows W H tw th)).1 with
      | none =>
          exact le_trans ((scan_none_iff _ _ _).mp hr cw hcw) hθ
      | some m =>
          rw [findLogoInCorners_eq_some cO W H tw th θ m hr] at hnone
          obtain ⟨hmem, hsnd, hpos, hall⟩ := scan_some _ _ _ _ hr
          by_cases hgt : (scan (fun cw : CornerWin => cO cw.x cw.y cw.w cw.h) 0
              (cornerWindows W H tw th)).2 > θ
          · rw [if_pos hgt] at hnone
            exact absurd hnone (by simp)
          · rw [hsnd] at hgt
            exact le_trans (hall cw hcw) (le_of_not_lt hgt)
    · intro hall
      cases hr : (scan (fun cw : CornerWin => cO cw.x cw.y cw.w cw.h) 0
          (cornerWindows W H tw th)).1 with
      | none => exact findLogoInCorners_eq_none cO W H tw th θ hr
      | some m =>
          obtain ⟨hmem, hsnd, hpos, -⟩ := scan_some _ _ _ _ hr
          have hng : ¬ (scan (fun cw : CornerWin => cO cw.x cw.y cw.w cw.h) 0
              (cornerWindows W H tw th)).2 > θ := by
            rw [hsnd]
            exact not_lt.mpr (hall m hmem)
          rw [findLogoInCorners_eq_some cO W H tw th θ m hr, if_neg hng]
  · intro r hrr
    cases hs : (scan (fun cw : CornerWin => cO cw.x cw.y cw.w cw.h) 0
        (cornerWindows W H tw th)).1 with
    | none =>
        rw [findLogoInCorners_eq_none cO W H tw th θ hs] at hrr
        exact absurd hrr (by simp)
    | some m =>
        rw [findLogoInCorners_eq_some cO W H tw th θ m hs] at hrr
        obtain ⟨hmem, hsnd, hpos, hall⟩ := scan_some _ _ _ _ hs
        by_cases hgt : (scan (fun cw : CornerWin => cO cw.x cw.y cw.w cw.h) 0
            (cornerWindows W H tw th)).2 > θ
        · rw [if_pos hgt] at hrr
          refine ⟨m, hmem, by simpa using hrr.symm, ?_, hall⟩
          rw [hsnd] at hgt
          exact hgt
        · rw [if_neg hgt] at hrr
          exact absurd hrr (by simp)

/-- A simple corner-similarity oracle used to witness C4. -/
noncomputable def cornerOracleEx : ℤ → ℤ → ℕ → ℕ → ℝ := fun _ _ _ _ => 0.2

theorem corners_c4_witness :
    (0 : ℝ) ≤ 0.6 ∧
    (cornerFallbackCall cornerOracleEx 100 100 20 20 = none ↔
      ∀ cw ∈ cornerWindows 100 100 20 20,
        cornerOracleEx cw.x cw.y cw.w cw.h ≤ 0.6) :=
  ⟨by norm_num,
    (corners_threshold_c4 cornerOracleEx 100 100 20 20 0.6 (by norm_num)).1⟩

/-! ### Background inpainter (`remove_old_logo`, lines 584-630)

RGB raster as a pixel function.  `remove_old_logo` samples up to four 10-px
border bands around the region — a side is included only when the *full*
margin fits (`x - margin >= 0`, `x + w + margin <= width`, ...) — averages
all sampled pixels per channel (`int()` truncates, i.e. floors, nonnegative
means), defaults to white, and fills with `ImageDraw.rectangle([x, y, x+w,
y+h])`, which in PIL paints the box *inclusive* of both corners. -/

/-- RGB raster buffer. -/
structure RGBImg where
  width : ℕ
  height : ℕ
  px : ℕ → ℕ → ℕ × ℕ × ℕ

/-- The source's `sample_regions` (tuples `(bx, by, bw, bh)`), in source
order left, right, top, bottom, with `margin = 10`. -/
def sampleBands (W H x y w h : ℕ) : List (ℕ × ℕ × ℕ × ℕ) :=
  (if 10 ≤ x then [(x - 10, y, 10, h)] else []) ++
    (if x + w + 10 ≤ W then [(x + w, y, 10, h)] else []) ++
    (if 10 ≤ y then [(x, y - 10, w, 10)] else []) ++
    (if y + h + 10 ≤ H then [(x, y + h, w, 10)] else [])

/-- `all_pixels`: every pixel of every sampled band, row major. -/
def bandPixels (img : RGBImg) (x y w h : ℕ) : List (ℕ × ℕ × ℕ) :=
  (sampleBands img.width img.height x y w h).flatMap fun b =>
    (List.range b.2.2.2).flatMap fun i =>
      (List.range b.2.2.1).map fun j => img.px (b.2.1 + i) (b.1 + j)

/-- `avg_color`: per-channel `int(np.mean(...))` of the sampled pixels, with
the white fallbacks of the source. -/
def avgColor (img : RGBImg) (x y w h : ℕ) : ℕ × ℕ × ℕ :=
  if sampleBands img.width img.height x y w h = [] then (255, 255, 255)
  else if bandPixels img x y w h = [] then (255, 255, 255)
  else
    ((⌊meanQ ((bandPixels img x y w h).map fun p => p.1)⌋).toNat,
      (⌊meanQ ((bandPixels img x y w h).map fun p => p.2.1)⌋).toNat,
      (⌊meanQ ((bandPixels img x y w h).map fun p => p.2.2)⌋).toNat)

/-- `remove_old_logo`: a copy of the image with
`draw.rectangle([x, y, x + w, y + h], fill=avg_color)` applied — PIL's
rectangle is inclusive of both endpoints and clipped to the image. -/
def removeOldLogo (img : RGBImg) (x y w h : ℕ) : RGBImg :=
  { width := img.width, height := img.height,
    px := fun i j =>
      if x ≤ j ∧ j ≤ x + w ∧ y ≤ i ∧ i ≤ y + h ∧ j < img.width ∧ i < img.height
      then avgColor img x y w h
      else img.px i j }

lemma meanQ_eq_natCast (l : List ℕ) : meanQ l = (l.sum : ℚ) / (l.length : ℚ) := by
  unfold meanQ
  rw [Nat.cast_list_sum]

lemma meanQ_const (l : List ℕ) (c : ℕ) (hne : l ≠ []) (h : ∀ v ∈ l, v = c) :
    meanQ l = c := by
  have hmap : l.map (fun v : ℕ => (v : ℚ)) = List.replicate l.length (c : ℚ) := by
    rw [List.eq_replicate_iff]
    refine ⟨by rw [List.length_map], ?_⟩
    intro q hq
    obtain ⟨v, hv, rfl⟩ := List.mem_map.mp hq
    rw [h v hv]
  unfold meanQ
  rw [hmap, List.sum_replicate, nsmul_eq_mul]
  have hlen0 : l.length ≠ 0 := by
    intro habs
    exact hne (List.eq_nil_of_length_eq_zero habs)
  have hlen : (l.length : ℚ) ≠ 0 := by exact_mod_cast hlen0
  field_simp

lemma removeOldLogo_px_in (img : RGBImg) (x y w h i j : ℕ)
    (h1 : x ≤ j) (h2 : j ≤ x + w) (h3 : y ≤ i) (h4 : i ≤ y + h)
    (h5 : j < img.width) (h6 : i < img.height) :
    (removeOldLogo img x y w h).px i j = avgColor img x y w h := by
  unfold removeOldLogo
  simp [h1, h2, h3, h4, h5, h6]

lemma bandPixels_nil_of_bands_nil (img : RGBImg) (x y w h : ℕ)
    (hb : sampleBands img.width img.height x y w h = []) :
    bandPixels img x y w h = [] := by
  unfold bandPixels
  rw [hb]
  rfl

lemma avgColor_white (img : RGBImg) (x y w h : ℕ)
    (hnil : bandPixels img x y w h = []) : avgColor img x y w h = (255, 255, 255) := by
  unfold avgColor
  by_cases hb : sampleBands img.width img.height x y w h = []
  · rw [if_pos hb]
  · rw [if_neg hb, if_pos hnil]

lemma avgColor_uniform (img : RGBImg) (x y w h : ℕ) (C : ℕ × ℕ × ℕ)
    (hne : bandPixels img x y w h ≠ [])
    (huni : ∀ p ∈ bandPixels img x y w h, p = C) :
    avgColor img x y w h = C := by
  have hb : sampleBands img.width img.height x y w h ≠ [] := by
    intro habs
    exact hne (bandPixels_nil_of_bands_nil img x y w h habs)
  unfold avgColor
  rw [if_neg hb, if_neg hne]
  have hmap : ∀ (f : ℕ × ℕ × ℕ → ℕ),
      meanQ ((bandPixels img x y w h).map f) = (f C : ℚ) := by
    intro f
    apply meanQ_const
    · intro habs
      exact hne (List.map_eq_nil_iff.mp habs)
    · intro v hv
      obtain ⟨p, hp, rfl⟩ := List.mem_map.mp hv
      rw [huni p hp]
  rw [hmap (fun p => p.1), hmap (fun p => p.2.1), hmap (fun p => p.2.2)]
  rw [Int.floor_natCast, Int.floor_natCast, Int.floor_natCast]
  rw [Int.toNat_natCast, Int.toNat_natCast, Int.toNat_natCast]

/-- C5 (amended): the erase fill samples only the border bands whose full
10-px margin fits inside the image (a partially fitting side is omitted, not
clipped); within the filled area the result is the per-channel floored mean
of those band pixels, white `(255, 255, 255)` when there are no samples, and
exactly `C` when every sampled border pixel is `C`. -/
theorem erase_fill_c5 (img : RGBImg) (x y w h : ℕ) (C : ℕ × ℕ × ℕ) (i j : ℕ)
    (h1 : x ≤ j) (h2 : j ≤ x + w) (h3 : y ≤ i) (h4 : i ≤ y + h)
    (h5 : j < img.width) (h6 : i < img.height) :
    (bandPixels img x y w h = [] →
      (removeOldLogo img x y w h).px i j = (255, 255, 255)) ∧
    (bandPixels img x y w h ≠ [] → (∀ p ∈ bandPixels img x y w h, p = C) →
      (removeOldLogo img x y w h).px i j = C) := by
  constructor
  · intro hnil
    rw [removeOldLogo_px_in img x y w h i j h1 h2 h3 h4 h5 h6]
    exact avgColor_white img x y w h hnil
  · intro hne huni
    rw [removeOldLogo_px_in img x y w h i j h1 h2 h3 h4 h5 h6]
    exact avgColor_uniform img x y w h C hne huni

/-- Uniform 30x30 image of color (7, 9, 11). -/
def imgU : RGBImg := ⟨30, 30, fun _ _ => (7, 9, 11)⟩

theorem erase_c5_witness :
    bandPixels imgU 10 10 5 5 ≠ [] ∧
    (removeOldLogo imgU 10 10 5 5).px 12 12 = (7, 9, 11) :=
  ⟨by decide,
    (erase_fill_c5 imgU 10 10 5 5 (7, 9, 11) 12 12 (by decide) (by decide)
      (by decide) (by decide) (by decide) (by decide)).2 (by decide) (by decide)⟩

/-! The claim's variant of the band sampling (spec §4.3): bands clipped to
the image bounds, a side omitted only when it has no room at all. -/

/-- Modelled from the claim's words: 10-px border bands clipped to stay
inside image bounds; a side with no room at all is omitted. -/
def clippedBands (W H x y w h : ℕ) : List (ℕ × ℕ × ℕ × ℕ) :=
  (if 0 < x then [(x - min x 10, y, min x 10, h)] else []) ++
    (if x + w < W then [(x + w, y, min 10 (W - (x + w)), h)] else []) ++
    (if 0 < y then [(x, y - min y 10, w, min y 10)] else []) ++
    (if y + h < H then [(x, y + h, w, min 10 (H - (y + h)))] else [])

/-- Modelled from the claim's words: all pixels of the clipped bands. -/
def clippedBandPixels (img : RGBImg) (x y w h : ℕ) : List (ℕ × ℕ × ℕ) :=
  (clippedBands img.width img.height x y w h).flatMap fun b =>
    (List.range b.2.2.2).flatMap fun i =>
      (List.range b.2.2.1).map fun j => img.px (b.2.1 + i) (b.1 + j)

/-- Modelled from the claim's words: per-channel integer mean of the clipped
border bands, white when no samples exist. -/
def claimFill (img : RGBImg) (x y w h : ℕ) : ℕ × ℕ × ℕ :=
  if clippedBandPixels img x y w h = [] then (255, 255, 255)
  else
    ((⌊meanQ ((clippedBandPixels img x y w h).map fun p => p.1)⌋).toNat,
      (⌊meanQ ((clippedBandPixels img x y w h).map fun p => p.2.1)⌋).toNat,
      (⌊meanQ ((clippedBandPixels img x y w h).map fun p => p.2.2)⌋).toNat)

/-- 20x30 image: columns 0..4 black, the rest white. -/
def imgC5 : RGBImg :=
  ⟨20, 30, fun _ j => if j < 5 then (0, 0, 0) else (255, 255, 255)⟩

/-- C5 counterexample: for the region `(5, 10, 2, 2)` of `imgC5`, the left
side has only 5 px of room, so the source omits it entirely and fills with
the mean of the right/top/bottom bands — pure white — whereas the claim's
clipped sampling includes the 5x2 black sliver and predicts integer mean
`218`, not `255`. -/
theorem erase_c5_counterexample :
    (removeOldLogo imgC5 5 10 2 2).px 11 6 = (255, 255, 255) ∧
    claimFill imgC5 5 10 2 2 = (218, 218, 218) ∧
    ((218, 218, 218) : ℕ × ℕ × ℕ) ≠ (255, 255, 255) := by
  refine ⟨?_, ?_, by decide⟩
  · rw [removeOldLogo_px_in imgC5 5 10 2 2 11 6 (by decide) (by decide) (by decide)
      (by decide) (by decide) (by decide)]
    exact avgColor_uniform imgC5 5 10 2 2 (255, 255, 255) (by decide) (by decide)
  · have hne : clippedBandPixels imgC5 5 10 2 2 ≠ [] := by decide
    unfold claimFill
    rw [if_neg hne]
    have hs1 : ((clippedBandPixels imgC5 5 10 2 2).map fun p => p.1).sum = 15300 := by
      decide
    have hl1 : ((clippedBandPixels imgC5 5 10 2 2).map fun p => p.1).length = 70 := by
      decide
    have hs2 : ((clippedBandPixels imgC5 5 10 2 2).map fun p => p.2.1).sum = 15300 := by
      decide
    have hl2 : ((clippedBandPixels imgC5 5 10 2 2).map fun p => p.2.1).length = 70 := by
      decide
    have hs3 : ((clippedBandPixels imgC5 5 10 2 2).map fun p => p.2.2).sum = 15300 := by
      decide
    have hl3 : ((clippedBandPixels imgC5 5 10 2 2).map fun p => p.2.2).length = 70 := by
      decide
    rw [meanQ_eq_natCast, meanQ_eq_natCast, meanQ_eq_natCast, hs1, hl1, hs2, hl2,
      hs3, hl3]
    norm_num
    rfl

/-- All-black 6x6 image. -/
def blackImg : RGBImg := ⟨6, 6, fun _ _ => (0, 0, 0)⟩

/-- C6: PIL's `draw.rectangle([x, y, x + w, y + h])` fills the box inclusive
of both endpoints, so erasing region `(0, 0, 2, 2)` of a black 6x6 image (no
border band fits, fill is white) also paints pixel `(row 0, column 2)`, which
lies outside the region `{0..1} x {0..1}` — the code mutates pixels outside
the given rectangle, contradicting the claim's frame condition. -/
theorem erase_frame_c6_bug :
    (removeOldLogo blackImg 0 0 2 2).px 0 2 = (255, 255, 255) ∧
    blackImg.px 0 2 = (0, 0, 0) ∧
    ¬ (2 < 0 + 2) := by
  refine ⟨?_, by decide, by decide⟩
  rw [removeOldLogo_px_in blackImg 0 0 2 2 0 2 (by decide) (by decide) (by decide)
    (by decide) (by decide) (by decide)]
  have hb : sampleBands blackImg.width blackImg.height 0 0 2 2 = [] := by decide
  exact avgColor_white blackImg 0 0 2 2 (bandPixels_nil_of_bands_nil _ _ _ _ _ hb)

/-! ### Overlap suppression (`_remove_overlapping_boxes`, lines 693-723) -/

/-- `overlap_area = overlap_x * overlap_y` for a candidate box `b` against an
already-kept box `e`, exactly as computed in the source. -/
def boxOverlapArea (b e : Rect) : ℤ :=
  max 0 (min (b.x + b.w) (e.x + e.w) - max b.x e.x) *
    max 0 (min (b.y + b.h) (e.y + e.h) - max b.y e.y)

/-- `is_unique`: the box overlaps no already-kept box by more than the
threshold fraction of the smaller area. -/
def isUniqueBox (θ : ℚ) (kept : List Rect) (b : Rect) : Prop :=
  ∀ e ∈ kept,
    ¬ ((boxOverlapArea b e : ℚ) > θ * min ((b.w * b.h : ℤ) : ℚ) ((e.w * e.h : ℤ) : ℚ))

instance (θ : ℚ) (kept : List Rect) (b : Rect) : Decidable (isUniqueBox θ kept b) := by
  unfold isUniqueBox; infer_instance

/-- One iteration of the source loop: append the box when it is unique. -/
def dedupStep (θ : ℚ) (kept : List Rect) (b : Rect) : List Rect :=
  if isUniqueBox θ kept b then kept ++ [b] else kept

/-- `_remove_overlapping_boxes` (default `overlap_threshold = 0.5`). -/
def removeOverlappingBoxes (boxes : List Rect) (θ : ℚ) : List Rect :=
  boxes.foldl (dedupStep θ) []

lemma dedupStep_pos (θ : ℚ) (kept : List Rect) (b : Rect)
    (hu : isUniqueBox θ kept b) : dedupStep θ kept b = kept ++ [b] := by
  unfold dedupStep
  rw [if_pos hu]

lemma dedupStep_neg (θ : ℚ) (kept : List Rect) (b : Rect)
    (hu : ¬ isUniqueBox θ kept b) : dedupStep θ kept b = kept := by
  unfold dedupStep
  rw [if_neg hu]

/-- C8: the dedup pass is greedy — for every list and threshold, a newly
considered box is appended exactly when it is `isUniqueBox` against the boxes
already kept (its overlap with each exceeds no `θ` fraction of the smaller
area) — and at the default threshold 0.5 two boxes overlapping strictly more
than half the smaller area collapse to the first, while two boxes overlapping
strictly less both survive. -/
theorem dedupe_pair_c8 (b1 b2 : Rect) :
    (∀ (boxes : List Rect) (θ : ℚ) (b : Rect),
      removeOverlappingBoxes (boxes ++ [b]) θ =
        if isUniqueBox θ (removeOverlappingBoxes boxes θ) b
        then removeOverlappingBoxes boxes θ ++ [b]
        else removeOverlappingBoxes boxes θ) ∧
    ((0.5 : ℚ) * min ((b2.w * b2.h : ℤ) : ℚ) ((b1.w * b1.h : ℤ) : ℚ) <
        ((boxOverlapArea b2 b1 : ℤ) : ℚ) →
      removeOverlappingBoxes [b1, b2] 0.5 = [b1]) ∧
    (((boxOverlapArea b2 b1 : ℤ) : ℚ) <
        (0.5 : ℚ) * min ((b2.w * b2.h : ℤ) : ℚ) ((b1.w * b1.h : ℤ) : ℚ) →
      removeOverlappingBoxes [b1, b2] 0.5 = [b1, b2]) := by
  have hgen : ∀ (boxes : List Rect) (θ : ℚ) (b : Rect),
      removeOverlappingBoxes (boxes ++ [b]) θ =
        if isUniqueBox θ (removeOverlappingBoxes boxes θ) b
        then removeOverlappingBoxes boxes θ ++ [b]
        else removeOverlappingBoxes boxes θ := by
    intro boxes θ b
    unfold removeOverlappingBoxes
    rw [List.foldl_append]
    rfl
  have hu1 : isUniqueBox 0.5 [] b1 := by
    intro e he
    simp at he
  have hfold : removeOverlappingBoxes [b1, b2] 0.5 =
      if isUniqueBox 0.5 [b1] b2 then [b1, b2] else [b1] := by
    unfold removeOverlappingBoxes
    simp only [List.foldl_cons, List.foldl_nil]
    rw [dedupStep_pos 0.5 [] b1 hu1]
    simp only [List.nil_append]
    by_cases h2 : isUniqueBox 0.5 [b1] b2
    · rw [dedupStep_pos 0.5 [b1] b2 h2, if_pos h2]
      rfl
    · rw [dedupStep_neg 0.5 [b1] b2 h2, if_neg h2]
  refine ⟨hgen, ?_, ?_⟩
  · intro hgt
    rw [hfold, if_neg]
    intro hu
    exact hu b1 (List.mem_singleton.mpr rfl) hgt
  · intro hlt
    rw [hfold, if_pos]
    intro e he
    rw [List.mem_singleton] at he
    subst he
    exact not_lt.mpr (le_of_lt hlt)

def boxA : Rect := ⟨0, 0, 4, 4⟩

def boxB : Rect := ⟨1, 1, 4, 4⟩

def boxC : Rect := ⟨10, 10, 4, 4⟩

theorem dedupe_c8_witness :
    removeOverlappingBoxes [boxA, boxB] 0.5 = [boxA] ∧
    removeOverlappingBoxes [boxA, boxC] 0.5 = [boxA, boxC] := by
  constructor
  · apply (dedupe_pair_c8 boxA boxB).2.1
    have h1 : boxOverlapArea boxB boxA = 9 := by decide
    have h2 : (boxB.w * boxB.h : ℤ) = 16 := by decide
    have h3 : (boxA.w * boxA.h : ℤ) = 16 := by decide
    rw [h1, h2, h3]
    norm_num
  · apply (dedupe_pair_c8 boxA boxC).2.2
    have h1 : boxOverlapArea boxC boxA = 0 := by decide
    have h2 : (boxC.w * boxC.h : ℤ) = 16 := by decide
    have h3 : (boxA.w * boxA.h : ℤ) = 16 := by decide
    rw [h1, h2, h3]
    norm_num

lemma dedupe_foldl_append (θ : ℚ) :
    ∀ (bs : List Rect) (kept : List Rect),
      ∃ s, bs.foldl (dedupStep θ) kept = kept ++ s ∧ s.Sublist bs := by
  intro bs
  induction bs with
  | nil =>
      intro kept
      exact ⟨[], by simp, List.Sublist.refl _⟩
  | cons b bs ih =>
      intro kept
      by_cases hu : isUniqueBox θ kept b
      · obtain ⟨s, hs, hsub⟩ := ih (kept ++ [b])
        refine ⟨b :: s, ?_, hsub.cons₂ b⟩
        simp only [List.foldl_cons]
        rw [dedupStep_pos θ kept b hu, hs, List.append_assoc]
        rfl
      · obtain ⟨s, hs, hsub⟩ := ih kept
        refine ⟨s, ?_, hsub.cons b⟩
        simp only [List.foldl_cons]
        rw [dedupStep_neg θ kept b hu, hs]

/-- C10: the output of the dedup pass is an order-preserving subsequence of
its input, and the first box of a non-empty input is always kept (the first
iteration checks against an empty kept-list, so it is vacuously unique). -/
theorem dedupe_sublist_c10 (boxes : List Rect) (θ : ℚ) :
    (removeOverlappingBoxes boxes θ).Sublist boxes ∧
    ∀ (b : Rect) (bs : List Rect), boxes = b :: bs →
      ∃ rest, removeOverlappingBoxes boxes θ = b :: rest := by
  constructor
  · obtain ⟨s, hs, hsub⟩ := dedupe_foldl_append θ boxes []
    unfold removeOverlappingBoxes
    rw [hs]
    simpa using hsub
  · rintro b bs rfl
    have hu : isUniqueBox θ [] b := by
      intro e he
      simp at he
    unfold removeOverlappingBoxes
    simp only [List.foldl_cons]
    rw [dedupStep_pos θ [] b hu]
    simp only [List.nil_append]
    obtain ⟨s, hs, -⟩ := dedupe_foldl_append θ bs [b]
    exact ⟨s, by rw [hs]; rfl⟩

theorem dedupe_c10_witness :
    (removeOverlappingBoxes [boxA, boxB] 0.5).Sublist [boxA, boxB] ∧
    ∃ rest, removeOverlappingBoxes [boxA, boxB] 0.5 = boxA :: rest :=
  ⟨(dedupe_sublist_c10 [boxA, boxB] 0.5).1,
    (dedupe_sublist_c10 [boxA, boxB] 0.5).2 boxA [boxB] rfl⟩

end ImageTool
